import Mathlib

/-!
Verification of the SIEVE cache policy (`SIEVECachePolicy` in
`src/Common/SIEVECachePolicy.h`-style header of this snapshot).

The C++ class is shallowly embedded as pure Lean functions over an explicit
state record.  Modelling choices, each noted at the definition it concerns:

* The `std::list<Key>` recency queue is a `List (Nat × K)`: each node carries
  a unique id (allocated from a monotone counter `next_id`), and a
  `std::list::iterator` is modelled by the id of the node it designates, with
  `none` standing for the `end()` sentinel.  Ids are never reused, so a
  "dangling" iterator is an id absent from the queue; dereferencing or erasing
  through such an id is undefined behaviour in C++ and is modelled as a crash
  (`none` result), as is `std::terminate`.
* The `std::unordered_map<Key, Cell>` is an association list with no duplicate
  keys (the map structure itself guarantees this; insertion only appends a
  fresh key).
* `size_t` arithmetic is modelled on `Nat`.  The only subtraction sites
  (`current_size_in_bytes -= cell.size`) never underflow on any state where
  the accounting invariant `current_size_in_bytes = sum of cell sizes` holds,
  and that invariant is proved below to hold in every reachable state, so
  truncated `Nat` subtraction agrees with `size_t` there.  The defensive
  `current_size_in_bytes > (1ull << 63)` check is kept literally.
* The `on_weight_loss_function` callback is not a Lean function; instead every
  operation returns the list of argument values the call passes to the
  callback, in order, so "called exactly once with w" is "the list is [w]".
* The eviction loop in `removeOverflow` is compiled to structural recursion on
  an explicit fuel.  Each C++ iteration strictly decreases
  (number of visited cells) + queue_size, so the fuel chosen at entry,
  countVisited + queue_size + 1, is never exhausted; exhaustion would be
  reported as a crash (`none`), never as a wrong result.
-/

/-- One `Cell` of the cache: the C++ struct holds the value handle (a shared
pointer that may be null, hence `Option V`), the cached weight, the SIEVE
visited bit and the iterator of the key's node in the recency queue. -/
structure SieveCell (V : Type) where
  value : Option V
  size : Nat
  visited : Bool
  queue_iterator : Nat
  deriving DecidableEq, Repr

/-- The state of a `SIEVECachePolicy`: recency queue (head = `begin()`,
insertion at the tail), eviction hand, fresh-node counter, cell map, running
byte total and the two capacity bounds. -/
structure SieveState (K V : Type) where
  queue : List (Nat × K)
  hand : Option Nat
  next_id : Nat
  cells : List (K × SieveCell V)
  current_size_in_bytes : Nat
  max_size_in_bytes : Nat
  max_count : Nat
  deriving DecidableEq, Repr

variable {K V : Type} [DecidableEq K]

/-- Keys of the cell map, in map order. -/
def keysOf (cells : List (K × SieveCell V)) : List K :=
  cells.map Prod.fst

/-- `cells.find(key)`: the first (and, in a well-formed map, only) cell bound
to `k`. -/
def findCell : List (K × SieveCell V) → K → Option (SieveCell V)
  | [], _ => none
  | kc :: rest, k => if kc.1 = k then some kc.2 else findCell rest k

/-- `cells.erase(it)`: drop the binding of `k` (the first one, which is the
only one in a well-formed map). -/
def eraseCell : List (K × SieveCell V) → K → List (K × SieveCell V)
  | [], _ => []
  | kc :: rest, k => if kc.1 = k then rest else kc :: eraseCell rest k

/-- In-place mutation of the cell bound to `k` (a no-op when `k` is absent,
which never happens at the call sites). -/
def updateCell : List (K × SieveCell V) → K → SieveCell V → List (K × SieveCell V)
  | [], _, _ => []
  | kc :: rest, k, c => if kc.1 = k then (k, c) :: rest else kc :: updateCell rest k c

/-- Sum of the stored `size` fields of all cells: what
`current_size_in_bytes` is meant to track. -/
def sumSizes (cells : List (K × SieveCell V)) : Nat :=
  (cells.map (fun kc => kc.2.size)).sum

/-- Number of cells whose visited bit is set; used only to size the fuel of
the eviction loop. -/
def countVisited (cells : List (K × SieveCell V)) : Nat :=
  (cells.filter (fun kc => kc.2.visited)).length

/-- Dereference a queue iterator: the key stored in node `i`. -/
def queueFind : List (Nat × K) → Nat → Option K
  | [], _ => none
  | n :: rest, i => if n.1 = i then some n.2 else queueFind rest i

/-- The iterator following node `i` (`std::next` / the result of `erase`):
`none` when `i` is the last node (or absent). -/
def queueNext : List (Nat × K) → Nat → Option Nat
  | [], _ => none
  | n :: rest, i => if n.1 = i then (rest.head?).map Prod.fst else queueNext rest i

/-- `queue.erase(i)`: remove node `i`. -/
def queueErase : List (Nat × K) → Nat → List (Nat × K)
  | [], _ => []
  | n :: rest, i => if n.1 = i then rest else n :: queueErase rest i

/-- Node ids currently present in the queue. -/
def queueIds (queue : List (Nat × K)) : List Nat :=
  queue.map Prod.fst

/-- `queue.begin()` as an iterator: the first node's id, or the `end()`
sentinel for an empty queue. -/
def queueBegin (queue : List (Nat × K)) : Option Nat :=
  (queue.head?).map Prod.fst

/-- The weight stored for a value handle:
`cell.value ? weight_function(*cell.value) : 0`. -/
def weightOf (w : V → Nat) : Option V → Nat
  | some x => w x
  | none => 0

/-- The constructor: empty queue and map, `hand = queue.begin()` (the end
sentinel of the empty queue), zero byte total. -/
def sieve_init (msz mc : Nat) : SieveState K V :=
  { queue := [], hand := none, next_id := 0, cells := [],
    current_size_in_bytes := 0, max_size_in_bytes := msz, max_count := mc }

/-- `sizeInBytes()`. -/
def sieve_sizeInBytes (st : SieveState K V) : Nat :=
  st.current_size_in_bytes

/-- `count()` = `cells.size()`. -/
def sieve_count (st : SieveState K V) : Nat :=
  st.cells.length

/-- `maxSizeInBytes()`. -/
def sieve_maxSizeInBytes (st : SieveState K V) : Nat :=
  st.max_size_in_bytes

/-- `dump()`: one `(key, value)` pair per cell, in map order. -/
def sieve_dump (st : SieveState K V) : List (K × Option V) :=
  st.cells.map (fun kc => (kc.1, kc.2.value))

/-- The mutable locals of the `removeOverflow` loop together with the parts of
the object state it reads and writes. -/
structure SieveLoopState (K V : Type) where
  queue : List (Nat × K)
  hand : Option Nat
  cells : List (K × SieveCell V)
  csz : Nat
  wl : Nat
  qs : Nat
  deriving DecidableEq, Repr

/-- The `while` condition of `removeOverflow`:
`(current_size_in_bytes > max_size_in_bytes || (max_count != 0 && queue_size > max_count)) && (queue_size > 0)`. -/
def loopCond (msz mc : Nat) (s : SieveLoopState K V) : Prop :=
  (msz < s.csz ∨ (mc ≠ 0 ∧ mc < s.qs)) ∧ 0 < s.qs

instance (msz mc : Nat) (s : SieveLoopState K V) : Decidable (loopCond msz mc s) :=
  inferInstanceAs (Decidable (And _ _))

/-- One-iteration-at-a-time translation of the `while` loop of
`removeOverflow`, structurally recursive on a fuel that the caller sizes so
that it cannot run out (see the header comment).  `none` models both
`std::terminate` (queue/map inconsistency) and undefined behaviour
(dereferencing or erasing through a dangling or end iterator). -/
def removeOverflowLoop (msz mc : Nat) : Nat → SieveLoopState K V → Option (SieveLoopState K V)
  | 0, s => if loopCond msz mc s then none else some s
  | fuel + 1, s =>
    if loopCond msz mc s then
      match (match s.hand with
             | none => queueBegin s.queue
             | some i => some i) with
      | none => none
      | some i =>
        match queueFind s.queue i with
        | none => none
        | some key =>
          match findCell s.cells key with
          | none => none
          | some cell =>
            if cell.visited = false then
              removeOverflowLoop msz mc fuel
                { queue := queueErase s.queue i
                  hand := queueNext s.queue i
                  cells := eraseCell s.cells key
                  csz := s.csz - cell.size
                  wl := s.wl + cell.size
                  qs := s.qs - 1 }
            else
              removeOverflowLoop msz mc fuel
                { s with cells := updateCell s.cells key { cell with visited := false }
                         hand := queueNext s.queue i }
    else
      some s

/-- `removeOverflow()`: run the scan, then invoke the weight-loss callback
with the accumulated `current_weight_lost` (returned as the second component),
then the defensive `current_size_in_bytes > (1ull << 63)` terminate check. -/
def removeOverflow (st : SieveState K V) : Option (SieveState K V × Nat) :=
  match removeOverflowLoop st.max_size_in_bytes st.max_count
      (countVisited st.cells + st.cells.length + 1)
      { queue := st.queue, hand := st.hand, cells := st.cells,
        csz := st.current_size_in_bytes, wl := 0, qs := st.cells.length } with
  | none => none
  | some s =>
    if 2 ^ 63 < s.csz then none
    else some ({ st with queue := s.queue, hand := s.hand, cells := s.cells,
                         current_size_in_bytes := s.csz }, s.wl)

/-- The part of `set(key, mapped)` before `removeOverflow()`: emplace/update
the cell, append a fresh key to the queue tail, maintain the byte total. -/
def setBody (w : V → Nat) (st : SieveState K V) (k : K) (v : Option V) : SieveState K V :=
  match findCell st.cells k with
  | none =>
    { st with
      cells := st.cells ++ [(k, { value := v, size := weightOf w v, visited := false,
                                  queue_iterator := st.next_id })],
      queue := st.queue ++ [(st.next_id, k)],
      next_id := st.next_id + 1,
      current_size_in_bytes := st.current_size_in_bytes + weightOf w v }
  | some c =>
    { st with
      cells := updateCell st.cells k { c with visited := true, value := v,
                                              size := weightOf w v },
      current_size_in_bytes := st.current_size_in_bytes - c.size + weightOf w v }

/-- `set(key, mapped)`: body then eviction scan; the returned list is the
sequence of weight-loss callback invocations of the call. -/
def sieve_set (w : V → Nat) (st : SieveState K V) (k : K) (v : Option V) :
    Option (SieveState K V × List Nat) :=
  (removeOverflow (setBody w st k v)).map (fun p => (p.1, [p.2]))

/-- The `catch` branch of `set` for a fresh key: the queue insertion threw
(with the strong guarantee, so the queue is untouched), the just-emplaced map
entry is erased, and the exception propagates with this state.  The emplaced
cell's payload fields are default-initialized junk; they are erased before
anything reads them, so the placeholder values below are immaterial. -/
def setQueueInsertFails (st : SieveState K V) (k : K) : SieveState K V :=
  { st with
    cells := eraseCell
      (st.cells ++ [(k, { value := none, size := 0, visited := false,
                          queue_iterator := 0 })]) k }

/-- `setMaxCount(n)`. -/
def sieve_setMaxCount (st : SieveState K V) (n : Nat) :
    Option (SieveState K V × List Nat) :=
  (removeOverflow { st with max_count := n }).map (fun p => (p.1, [p.2]))

/-- `setMaxSizeInBytes(n)`. -/
def sieve_setMaxSizeInBytes (st : SieveState K V) (n : Nat) :
    Option (SieveState K V × List Nat) :=
  (removeOverflow { st with max_size_in_bytes := n }).map (fun p => (p.1, [p.2]))

/-- `clear()`. -/
def sieve_clear (st : SieveState K V) : SieveState K V :=
  { st with queue := [], cells := [], current_size_in_bytes := 0, hand := none }

/-- `remove(key)`.  Translated literally, including the conditional
`hand = std::next(cell.queue_iterator) == queue.end() ? queue.begin() : ++cell.queue_iterator;`
whose `else` arm mutates `cell.queue_iterator` before
`queue.erase(cell.queue_iterator)`, so that arm erases the successor node.
Erasing or taking the successor of an iterator whose node is no longer in the
queue is undefined behaviour and yields `none`. -/
def sieve_remove (st : SieveState K V) (k : K) : Option (SieveState K V) :=
  match findCell st.cells k with
  | none => some st
  | some cell =>
    if (cell.queue_iterator ∈ queueIds st.queue) then
      if st.hand = some cell.queue_iterator then
        match queueNext st.queue cell.queue_iterator with
        | none =>
          some { st with hand := queueBegin st.queue,
                         queue := queueErase st.queue cell.queue_iterator,
                         cells := eraseCell st.cells k,
                         current_size_in_bytes := st.current_size_in_bytes - cell.size }
        | some n =>
          some { st with hand := some n,
                         queue := queueErase st.queue n,
                         cells := eraseCell st.cells k,
                         current_size_in_bytes := st.current_size_in_bytes - cell.size }
      else
        some { st with queue := queueErase st.queue cell.queue_iterator,
                       cells := eraseCell st.cells k,
                       current_size_in_bytes := st.current_size_in_bytes - cell.size }
    else none

/-- `get(key)`: the returned `MappedPtr` (null on a miss, the stored handle on
a hit) and the state after setting the visited bit. -/
def sieve_get (st : SieveState K V) (k : K) : Option V × SieveState K V :=
  match findCell st.cells k with
  | none => (none, st)
  | some c =>
    (c.value, { st with cells := updateCell st.cells k { c with visited := true } })

/-- `getWithKey(key)`: `nullopt` on a miss, the stored `(key, value)` pair on
a hit, with the visited bit set. -/
def sieve_getWithKey (st : SieveState K V) (k : K) :
    Option (K × Option V) × SieveState K V :=
  match findCell st.cells k with
  | none => (none, st)
  | some c =>
    (some (k, c.value),
     { st with cells := updateCell st.cells k { c with visited := true } })

/-- States reachable from a freshly constructed policy by public calls that
return (a `none` result models a crash, after which there is no state). -/
inductive SieveReachable (w : V → Nat) : SieveState K V → Prop
  | init (msz mc : Nat) : SieveReachable w (sieve_init msz mc)
  | set {st st' : SieveState K V} {es : List Nat} (k : K) (v : Option V) :
      SieveReachable w st → sieve_set w st k v = some (st', es) → SieveReachable w st'
  | setMaxCount {st st' : SieveState K V} {es : List Nat} (n : Nat) :
      SieveReachable w st → sieve_setMaxCount st n = some (st', es) → SieveReachable w st'
  | setMaxSizeInBytes {st st' : SieveState K V} {es : List Nat} (n : Nat) :
      SieveReachable w st → sieve_setMaxSizeInBytes st n = some (st', es) →
      SieveReachable w st'
  | remove {st st' : SieveState K V} (k : K) :
      SieveReachable w st → sieve_remove st k = some st' → SieveReachable w st'
  | clear {st : SieveState K V} :
      SieveReachable w st → SieveReachable w (sieve_clear st)
  | get {st : SieveState K V} (k : K) :
      SieveReachable w st → SieveReachable w (sieve_get st k).2
  | getWithKey {st : SieveState K V} (k : K) :
      SieveReachable w st → SieveReachable w (sieve_getWithKey st k).2

/-- The eviction cursor is valid: it is the end sentinel or designates a node
still present in the queue. -/
def handValid (st : SieveState K V) : Prop :=
  st.hand = none ∨ ∃ i, st.hand = some i ∧ i ∈ queueIds st.queue

instance (st : SieveState K V) : Decidable (handValid st) := by
  unfold handValid; infer_instance

/-- The cell bound to `k` exists and stores `i` as its queue iterator. -/
def cellAtIter (cells : List (K × SieveCell V)) (k : K) (i : Nat) : Prop :=
  match findCell cells k with
  | some c => c.queue_iterator = i
  | none => False

instance (cells : List (K × SieveCell V)) (k : K) (i : Nat) :
    Decidable (cellAtIter cells k i) := by
  unfold cellAtIter
  cases findCell cells k with
  | none => exact isFalse (fun h => h)
  | some c => exact inferInstanceAs (Decidable (c.queue_iterator = i))

/-- The data-model invariants of the spec: queue/map key bijection, per-cell
iterator consistency, duplicate-freedom on both sides, exact byte accounting,
and cursor validity. -/
def SieveWF (st : SieveState K V) : Prop :=
  (queueIds st.queue).Nodup ∧
  (keysOf st.cells).Nodup ∧
  (∀ p ∈ st.queue, cellAtIter st.cells p.2 p.1) ∧
  (∀ kc ∈ st.cells, (kc.2.queue_iterator, kc.1) ∈ st.queue) ∧
  st.current_size_in_bytes = sumSizes st.cells ∧
  handValid st

instance (st : SieveState K V) : Decidable (SieveWF st) := by
  unfold SieveWF; infer_instance

/-- Weight function used by the concrete test instances: every value weighs
one byte (the default `EqualWeightFunction`). -/
def w1 : Nat → Nat := fun _ => 1

/-- Total stored weight of the entries of `pre` that are no longer present in
`post`: the bytes evicted in going from map `pre` to map `post`. -/
def evictedWeight (pre post : List (K × SieveCell V)) : Nat :=
  ((pre.filter (fun kc => (findCell post kc.1).isNone)).map
    (fun kc => kc.2.size)).sum

/-- The reachable-state invariant: exact byte accounting, duplicate-free map
keys, and both capacity bounds respected. -/
def SieveInv (st : SieveState K V) : Prop :=
  st.current_size_in_bytes = sumSizes st.cells ∧
  (keysOf st.cells).Nodup ∧
  st.current_size_in_bytes ≤ st.max_size_in_bytes ∧
  (st.max_count ≠ 0 → st.cells.length ≤ st.max_count)

/-- Concrete scenario of claim C2 (keys A=10, B=11, C=12, unit weights,
`max_count = 2`, byte limit 100): set A, set B, get A, set C. -/
def c2chain : Option (SieveState Nat Nat) :=
  ((sieve_set w1 (sieve_init 100 2) 10 (some 1)).map Prod.fst).bind (fun s1 =>
  ((sieve_set w1 s1 11 (some 2)).map Prod.fst).bind (fun s2 =>
  (sieve_set w1 (sieve_get s2 10).2 12 (some 3)).map Prod.fst))

/-- A well-formed two-entry cache (keys 10 and 11, unit sizes) whose eviction
hand rests on key 10's queue node: the failing input of claim C5. -/
def c5pre : SieveState Nat Nat :=
  { queue := [(0, 10), (1, 11)], hand := some 0, next_id := 2,
    cells := [(10, { value := some 1, size := 1, visited := false, queue_iterator := 0 }),
              (11, { value := some 2, size := 1, visited := false, queue_iterator := 1 })],
    current_size_in_bytes := 2, max_size_in_bytes := 100, max_count := 0 }

/-- A well-formed singleton cache (key 10) whose eviction hand rests on its
only queue node: the other failing case of claim C5. -/
def c5single : SieveState Nat Nat :=
  { queue := [(0, 10)], hand := some 0, next_id := 1,
    cells := [(10, { value := some 1, size := 1, visited := false, queue_iterator := 0 })],
    current_size_in_bytes := 1, max_size_in_bytes := 100, max_count := 0 }

/-- A cache holding one stored-null entry under key 4 (weight 0), the state
after set(4, null) on a fresh cache with byte limit 10: test state for
claim C10. -/
def c10state : SieveState Nat Nat :=
  { queue := [(0, 4)], hand := none, next_id := 1,
    cells := [(4, { value := none, size := 0, visited := false, queue_iterator := 0 })],
    current_size_in_bytes := 0, max_size_in_bytes := 10, max_count := 0 }

/-! ### Association-list lemmas -/

theorem findCell_eq_none {cells : List (K × SieveCell V)} {k : K} :
    findCell cells k = none ↔ k ∉ keysOf cells := by
  induction cells with
  | nil => simp [findCell, keysOf]
  | cons kc rest ih =>
    by_cases h : kc.1 = k <;> simp [findCell, keysOf, h] at ih ⊢ <;> tauto

theorem mem_keys_of_findCell {cells : List (K × SieveCell V)} {k : K} {c : SieveCell V}
    (h : findCell cells k = some c) : k ∈ keysOf cells := by
  by_contra hk
  rw [← findCell_eq_none] at hk
  simp [h] at hk

omit [DecidableEq K] in
theorem sumSizes_cons (kc : K × SieveCell V) (rest : List (K × SieveCell V)) :
    sumSizes (kc :: rest) = kc.2.size + sumSizes rest := by
  simp [sumSizes]

theorem eraseCell_length {cells : List (K × SieveCell V)} {k : K} {c : SieveCell V}
    (h : findCell cells k = some c) :
    (eraseCell cells k).length + 1 = cells.length := by
  induction cells with
  | nil => simp [findCell] at h
  | cons kc rest ih =>
    by_cases hk : kc.1 = k
    · simp [eraseCell, hk]
    · simp [findCell, hk] at h
      simp [eraseCell, hk, ih h]

theorem sumSizes_erase {cells : List (K × SieveCell V)} {k : K} {c : SieveCell V}
    (h : findCell cells k = some c) :
    sumSizes (eraseCell cells k) + c.size = sumSizes cells := by
  induction cells with
  | nil => simp [findCell] at h
  | cons kc rest ih =>
    rw [findCell] at h
    rw [eraseCell]
    by_cases hk : kc.1 = k
    · rw [if_pos hk] at h ⊢
      injection h with h
      subst h
      rw [sumSizes_cons]
      omega
    · rw [if_neg hk] at h ⊢
      rw [sumSizes_cons, sumSizes_cons]
      have := ih h
      omega

theorem size_le_sumSizes {cells : List (K × SieveCell V)} {k : K} {c : SieveCell V}
    (h : findCell cells k = some c) : c.size ≤ sumSizes cells := by
  have := sumSizes_erase h
  omega

theorem updateCell_length (cells : List (K × SieveCell V)) (k : K) (c : SieveCell V) :
    (updateCell cells k c).length = cells.length := by
  induction cells with
  | nil => simp [updateCell]
  | cons kc rest ih =>
    by_cases hk : kc.1 = k <;> simp [updateCell, hk, ih]

theorem sumSizes_update {cells : List (K × SieveCell V)} {k : K} {c : SieveCell V}
    (c' : SieveCell V) (h : findCell cells k = some c) :
    sumSizes (updateCell cells k c') + c.size = sumSizes cells + c'.size := by
  induction cells with
  | nil => simp [findCell] at h
  | cons kc rest ih =>
    rw [findCell] at h
    rw [updateCell]
    by_cases hk : kc.1 = k
    · rw [if_pos hk] at h ⊢
      injection h with h
      subst h
      rw [sumSizes_cons, sumSizes_cons]
      have hc : ((k, c') : K × SieveCell V).2 = c' := rfl
      rw [hc]
      omega
    · rw [if_neg hk] at h ⊢
      rw [sumSizes_cons, sumSizes_cons]
      have := ih h
      omega

theorem keysOf_update (cells : List (K × SieveCell V)) (k : K) (c : SieveCell V) :
    keysOf (updateCell cells k c) = keysOf cells := by
  induction cells with
  | nil => simp [updateCell]
  | cons kc rest ih =>
    rw [updateCell]
    by_cases hk : kc.1 = k
    · rw [if_pos hk]
      show k :: keysOf rest = kc.1 :: keysOf rest
      rw [hk]
    · rw [if_neg hk]
      show kc.1 :: keysOf (updateCell rest k c) = kc.1 :: keysOf rest
      rw [ih]

theorem findCell_update_self {cells : List (K × SieveCell V)} {k : K} {c : SieveCell V}
    (c' : SieveCell V) (h : findCell cells k = some c) :
    findCell (updateCell cells k c') k = some c' := by
  induction cells with
  | nil => simp [findCell] at h
  | cons kc rest ih =>
    by_cases hk : kc.1 = k
    · simp [updateCell, hk, findCell]
    · simp [findCell, hk] at h
      simp [updateCell, hk, findCell, ih h]

theorem findCell_update_ne {cells : List (K × SieveCell V)} {k k' : K}
    (c' : SieveCell V) (hne : k' ≠ k) :
    findCell (updateCell cells k c') k' = findCell cells k' := by
  induction cells with
  | nil => simp [updateCell]
  | cons kc rest ih =>
    rw [updateCell]
    by_cases hk : kc.1 = k
    · have h1 : ((k, c') : K × SieveCell V).1 = k' ↔ False := by
        simp only [iff_false]
        exact fun h => hne h.symm
      have h2 : kc.1 = k' ↔ False := by
        simp only [iff_false]
        rw [hk]
        exact fun h => hne h.symm
      rw [if_pos hk, findCell, findCell, if_neg h1.mp, if_neg h2.mp]
    · rw [if_neg hk, findCell, findCell]
      by_cases hk' : kc.1 = k'
      · rw [if_pos hk', if_pos hk']
      · rw [if_neg hk', if_neg hk', ih]

theorem findCell_erase_ne {cells : List (K × SieveCell V)} {k k' : K}
    (hne : k' ≠ k) :
    findCell (eraseCell cells k) k' = findCell cells k' := by
  induction cells with
  | nil => simp [eraseCell]
  | cons kc rest ih =>
    rw [eraseCell]
    by_cases hk : kc.1 = k
    · have h2 : ¬(kc.1 = k') := by
        rw [hk]
        exact fun h => hne h.symm
      rw [if_pos hk, findCell, if_neg h2]
    · rw [if_neg hk, findCell, findCell]
      by_cases hk' : kc.1 = k'
      · rw [if_pos hk', if_pos hk']
      · rw [if_neg hk', if_neg hk', ih]

theorem keysOf_erase_subset (cells : List (K × SieveCell V)) (k : K) :
    keysOf (eraseCell cells k) ⊆ keysOf cells := by
  induction cells with
  | nil => simp [eraseCell]
  | cons kc rest ih =>
    rw [eraseCell]
    by_cases hk : kc.1 = k
    · rw [if_pos hk]
      show keysOf rest ⊆ kc.1 :: keysOf rest
      exact fun x hx => List.mem_cons_of_mem _ hx
    · rw [if_neg hk]
      show kc.1 :: keysOf (eraseCell rest k) ⊆ kc.1 :: keysOf rest
      exact List.cons_subset_cons _ ih

theorem nodup_keys_erase {cells : List (K × SieveCell V)} (k : K)
    (h : (keysOf cells).Nodup) : (keysOf (eraseCell cells k)).Nodup := by
  induction cells with
  | nil => simpa [eraseCell] using h
  | cons kc rest ih =>
    simp only [keysOf, List.map_cons, List.nodup_cons] at h
    rw [eraseCell]
    by_cases hk : kc.1 = k
    · rw [if_pos hk]
      exact h.2
    · rw [if_neg hk]
      show (kc.1 :: keysOf (eraseCell rest k)).Nodup
      rw [List.nodup_cons]
      exact ⟨fun hm => h.1 (keysOf_erase_subset rest k hm), ih h.2⟩

theorem not_mem_keys_erase {cells : List (K × SieveCell V)} {k : K}
    (h : (keysOf cells).Nodup) : k ∉ keysOf (eraseCell cells k) := by
  induction cells with
  | nil => simp [eraseCell, keysOf]
  | cons kc rest ih =>
    simp only [keysOf, List.map_cons, List.nodup_cons] at h
    rw [eraseCell]
    by_cases hk : kc.1 = k
    · rw [if_pos hk]
      subst hk
      exact h.1
    · rw [if_neg hk]
      intro hm
      rcases List.mem_cons.mp hm with h1 | h2
      · exact hk h1.symm
      · exact ih h.2 h2

theorem eraseCell_append_fresh {cells : List (K × SieveCell V)} {k : K}
    (c : SieveCell V) (h : k ∉ keysOf cells) :
    eraseCell (cells ++ [(k, c)]) k = cells := by
  induction cells with
  | nil => simp [eraseCell]
  | cons kc rest ih =>
    simp only [keysOf, List.map_cons, List.mem_cons] at h
    push_neg at h
    show (if kc.1 = k then rest ++ [(k, c)] else kc :: eraseCell (rest ++ [(k, c)]) k)
        = kc :: rest
    rw [if_neg (fun hh => h.1 hh.symm), ih h.2]

/-! ### Eviction-loop lemmas -/

theorem removeOverflowLoop_spec (msz mc : Nat) :
    ∀ (fuel : Nat) (s s' : SieveLoopState K V),
      removeOverflowLoop msz mc fuel s = some s' →
      s'.wl + sumSizes s'.cells = s.wl + sumSizes s.cells ∧
      sumSizes s'.cells ≤ sumSizes s.cells ∧
      ¬ loopCond msz mc s' ∧
      (s.qs = s.cells.length → s'.qs = s'.cells.length) ∧
      (s.csz = sumSizes s.cells → s'.csz = sumSizes s'.cells) := by
  intro fuel
  induction fuel with
  | zero =>
    intro s s' h
    rw [removeOverflowLoop] at h
    by_cases hc : loopCond msz mc s
    · rw [if_pos hc] at h
      simp at h
    · rw [if_neg hc] at h
      injection h with h
      subst h
      exact ⟨rfl, le_refl _, hc, fun hq => hq, fun hcz => hcz⟩
  | succ fuel ih =>
    intro s s' h
    rw [removeOverflowLoop] at h
    by_cases hc : loopCond msz mc s
    · rw [if_pos hc] at h
      split at h
      · exact absurd h (by simp)
      · split at h
        · exact absurd h (by simp)
        · rename_i key hfind
          split at h
          · exact absurd h (by simp)
          · rename_i cell hcell
            split at h
            · -- eviction branch
              obtain ⟨h1, h2, h3, h4, h5⟩ := ih _ _ h
              dsimp at h1 h2 h4 h5
              have hs := sumSizes_erase hcell
              have hsz := size_le_sumSizes hcell
              have hlen := eraseCell_length hcell
              refine ⟨by omega, by omega, h3, fun hq => h4 (by omega), fun hcz => h5 (by omega)⟩
            · -- demotion branch
              obtain ⟨h1, h2, h3, h4, h5⟩ := ih _ _ h
              dsimp at h1 h2 h4 h5
              have hs := sumSizes_update
                { cell with visited := false } hcell
              have hlen := updateCell_length s.cells key { cell with visited := false }
              have hcsz : ({ cell with visited := false } : SieveCell V).size = cell.size := rfl
              rw [hcsz] at hs
              refine ⟨by omega, by omega, h3, fun hq => h4 (by omega), fun hcz => h5 (by omega)⟩
    · rw [if_neg hc] at h
      injection h with h
      subst h
      exact ⟨rfl, le_refl _, hc, fun hq => hq, fun hcz => hcz⟩

theorem evictedWeight_cons (kc : K × SieveCell V) (rest post : List (K × SieveCell V)) :
    evictedWeight (kc :: rest) post =
      (if (findCell post kc.1).isNone then kc.2.size else 0) + evictedWeight rest post := by
  cases hb : (findCell post kc.1).isNone
  · simp [evictedWeight, List.filter_cons, hb]
  · simp [evictedWeight, List.filter_cons, hb]

theorem findCell_isNone_false_of_mem {cells : List (K × SieveCell V)} {k : K}
    (h : k ∈ keysOf cells) : (findCell cells k).isNone = false := by
  cases hf : findCell cells k with
  | none =>
    rw [findCell_eq_none] at hf
    exact absurd h hf
  | some c => rfl

theorem evictedWeight_eq_zero {pre post : List (K × SieveCell V)}
    (h : ∀ kc ∈ pre, kc.1 ∈ keysOf post) : evictedWeight pre post = 0 := by
  induction pre with
  | nil => simp [evictedWeight]
  | cons kc rest ih =>
    rw [evictedWeight_cons, findCell_isNone_false_of_mem (h kc (List.mem_cons_self _ _))]
    simp only [Bool.false_eq_true, if_false, Nat.zero_add]
    exact ih (fun kc' hm => h kc' (List.mem_cons_of_mem _ hm))

theorem evictedWeight_refl (cells : List (K × SieveCell V)) :
    evictedWeight cells cells = 0 :=
  evictedWeight_eq_zero (fun kc hm => List.mem_map_of_mem Prod.fst hm)

theorem evictedWeight_update {pre post : List (K × SieveCell V)} {k : K}
    {c : SieveCell V} (c' : SieveCell V) (hf : findCell pre k = some c)
    (hsz : c'.size = c.size) :
    evictedWeight (updateCell pre k c') post = evictedWeight pre post := by
  induction pre with
  | nil => simp [findCell] at hf
  | cons kc rest ih =>
    rw [findCell] at hf
    rw [updateCell]
    by_cases hk : kc.1 = k
    · rw [if_pos hk] at hf
      injection hf with hf
      rw [if_pos hk, evictedWeight_cons, evictedWeight_cons]
      have e : (if (findCell post ((k, c') : K × SieveCell V).1).isNone
                then ((k, c') : K × SieveCell V).2.size else 0)
          = (if (findCell post kc.1).isNone then kc.2.size else 0) := by
        show (if (findCell post k).isNone then c'.size else 0) = _
        rw [← hk, hsz, ← hf]
      rw [e]
    · rw [if_neg hk] at hf
      rw [if_neg hk, evictedWeight_cons, evictedWeight_cons, ih hf]

theorem evictedWeight_erase {pre post : List (K × SieveCell V)} {k : K}
    {c : SieveCell V} (hnd : (keysOf pre).Nodup) (hf : findCell pre k = some c)
    (habs : k ∉ keysOf post) :
    evictedWeight pre post = c.size + evictedWeight (eraseCell pre k) post := by
  induction pre with
  | nil => simp [findCell] at hf
  | cons kc rest ih =>
    simp only [keysOf, List.map_cons, List.nodup_cons] at hnd
    rw [findCell] at hf
    rw [eraseCell]
    by_cases hk : kc.1 = k
    · rw [if_pos hk] at hf
      injection hf with hf
      rw [if_pos hk, evictedWeight_cons]
      have hnone : findCell post kc.1 = none := by
        rw [findCell_eq_none, hk]
        exact habs
      rw [hnone]
      simp only [Option.isNone_none, if_true]
      rw [hf]
    · rw [if_neg hk] at hf
      rw [if_neg hk, evictedWeight_cons, evictedWeight_cons, ih hnd.2 hf]
      omega

theorem removeOverflowLoop_evicted (msz mc : Nat) :
    ∀ (fuel : Nat) (s s' : SieveLoopState K V),
      (keysOf s.cells).Nodup →
      removeOverflowLoop msz mc fuel s = some s' →
      (keysOf s'.cells).Nodup ∧
      (∀ k, k ∈ keysOf s'.cells → k ∈ keysOf s.cells) ∧
      s'.wl = s.wl + evictedWeight s.cells s'.cells ∧
      (∀ k c', findCell s'.cells k = some c' →
        ∃ c, findCell s.cells k = some c ∧ c'.value = c.value ∧ c'.size = c.size ∧
          (c'.visited = c.visited ∨ c'.visited = false)) := by
  intro fuel
  induction fuel with
  | zero =>
    intro s s' hnd h
    rw [removeOverflowLoop] at h
    by_cases hc : loopCond msz mc s
    · rw [if_pos hc] at h
      simp at h
    · rw [if_neg hc] at h
      injection h with h
      subst h
      refine ⟨hnd, fun k hk => hk, ?_, fun k c' hf => ⟨c', hf, rfl, rfl, Or.inl rfl⟩⟩
      rw [evictedWeight_refl]
      omega
  | succ fuel ih =>
    intro s s' hnd h
    rw [removeOverflowLoop] at h
    by_cases hc : loopCond msz mc s
    · rw [if_pos hc] at h
      split at h
      · exact absurd h (by simp)
      · split at h
        · exact absurd h (by simp)
        · rename_i key hfind
          split at h
          · exact absurd h (by simp)
          · rename_i cell hcell
            split at h
            · -- eviction branch
              have hnd1 : (keysOf (eraseCell s.cells key)).Nodup := nodup_keys_erase key hnd
              obtain ⟨h1, h2, h3, h4⟩ := ih _ _ hnd1 h
              dsimp at h1 h2 h3 h4
              have hkeyout : key ∉ keysOf s'.cells := by
                intro hk
                exact not_mem_keys_erase hnd (h2 key hk)
              refine ⟨h1, fun k hk => keysOf_erase_subset _ _ (h2 k hk), ?_, ?_⟩
              · rw [h3, evictedWeight_erase hnd hcell hkeyout]
                omega
              · intro k c' hf
                obtain ⟨c1, hc1, hv, hs, hvis⟩ := h4 k c' hf
                by_cases hkk : k = key
                · subst hkk
                  rw [findCell_eq_none.mpr (not_mem_keys_erase hnd)] at hc1
                  cases hc1
                · rw [findCell_erase_ne hkk] at hc1
                  exact ⟨c1, hc1, hv, hs, hvis⟩
            · -- demotion branch
              have hnd1 : (keysOf (updateCell s.cells key
                  { cell with visited := false })).Nodup := by
                rw [keysOf_update]
                exact hnd
              obtain ⟨h1, h2, h3, h4⟩ := ih _ _ hnd1 h
              dsimp at h1 h2 h3 h4
              rw [keysOf_update] at h2
              refine ⟨h1, h2, ?_, ?_⟩
              · rw [h3, evictedWeight_update { cell with visited := false } hcell rfl]
              · intro k c' hf
                obtain ⟨c1, hc1, hv, hs, hvis⟩ := h4 k c' hf
                by_cases hkk : k = key
                · subst hkk
                  rw [findCell_update_self _ hcell] at hc1
                  injection hc1 with hc1
                  subst hc1
                  refine ⟨cell, hcell, hv, hs, Or.inr ?_⟩
                  rcases hvis with hvis | hvis
                  · rw [hvis]
                  · exact hvis
                · rw [findCell_update_ne _ hkk] at hc1
                  exact ⟨c1, hc1, hv, hs, hvis⟩
    · rw [if_neg hc] at h
      injection h with h
      subst h
      refine ⟨hnd, fun k hk => hk, ?_, fun k c' hf => ⟨c', hf, rfl, rfl, Or.inl rfl⟩⟩
      rw [evictedWeight_refl]
      omega

/-! ### removeOverflow-level lemmas -/

theorem removeOverflow_spec {st st' : SieveState K V} {wlv : Nat}
    (h : removeOverflow st = some (st', wlv)) :
    st'.max_size_in_bytes = st.max_size_in_bytes ∧
    st'.max_count = st.max_count ∧
    st'.next_id = st.next_id ∧
    (st.current_size_in_bytes = sumSizes st.cells →
      st'.current_size_in_bytes = sumSizes st'.cells ∧
      st'.current_size_in_bytes ≤ st.max_size_in_bytes ∧
      (st.max_count ≠ 0 → st'.cells.length ≤ st.max_count)) := by
  rw [removeOverflow] at h
  split at h
  · exact absurd h (by simp)
  · rename_i s hloop
    by_cases hbig : 2 ^ 63 < s.csz
    · rw [if_pos hbig] at h
      simp at h
    · rw [if_neg hbig] at h
      injection h with h
      injection h with h1 h2
      subst h1
      obtain ⟨g1, g2, g3, g4, g5⟩ := removeOverflowLoop_spec _ _ _ _ _ hloop
      dsimp at g3 g4 g5 ⊢
      refine ⟨rfl, rfl, rfl, fun hacct => ?_⟩
      have hqs : s.qs = s.cells.length := g4 rfl
      have hcsz : s.csz = sumSizes s.cells := g5 hacct
      rw [loopCond] at g3
      push_neg at g3
      refine ⟨hcsz, ?_, fun hmc => ?_⟩
      · by_cases hq : 0 < s.qs
        · by_cases hs2 : st.max_size_in_bytes < s.csz
          · have := g3 (Or.inl hs2)
            omega
          · omega
        · have hlen : s.cells.length = 0 := by omega
          have : s.cells = [] := List.length_eq_zero.mp hlen
          rw [this] at hcsz
          simp [sumSizes] at hcsz
          omega
      · by_cases hq : 0 < s.qs
        · by_cases hcnt : st.max_count < s.qs
          · have := g3 (Or.inr ⟨hmc, hcnt⟩)
            omega
          · omega
        · omega

theorem removeOverflow_evicted {st st' : SieveState K V} {wlv : Nat}
    (hnd : (keysOf st.cells).Nodup) (h : removeOverflow st = some (st', wlv)) :
    (keysOf st'.cells).Nodup ∧
    (∀ k, k ∈ keysOf st'.cells → k ∈ keysOf st.cells) ∧
    wlv = evictedWeight st.cells st'.cells ∧
    (∀ k c', findCell st'.cells k = some c' →
      ∃ c, findCell st.cells k = some c ∧ c'.value = c.value ∧ c'.size = c.size ∧
        (c'.visited = c.visited ∨ c'.visited = false)) := by
  rw [removeOverflow] at h
  split at h
  · exact absurd h (by simp)
  · rename_i s hloop
    by_cases hbig : 2 ^ 63 < s.csz
    · rw [if_pos hbig] at h
      simp at h
    · rw [if_neg hbig] at h
      injection h with h
      injection h with h1 h2
      subst h1
      obtain ⟨g1, g2, g3, g4⟩ := removeOverflowLoop_evicted _ _ _ _ _ hnd hloop
      dsimp at g1 g2 g3 g4 ⊢
      subst h2
      exact ⟨g1, g2, by omega, g4⟩

/-! ### Operation-level lemmas -/

theorem sumSizes_append_single (cells : List (K × SieveCell V)) (kc : K × SieveCell V) :
    sumSizes (cells ++ [kc]) = sumSizes cells + kc.2.size := by
  simp [sumSizes]

theorem keysOf_append_single (cells : List (K × SieveCell V)) (kc : K × SieveCell V) :
    keysOf (cells ++ [kc]) = keysOf cells ++ [kc.1] := by
  simp [keysOf]

theorem setBody_spec (w : V → Nat) (st : SieveState K V) (k : K) (v : Option V) :
    (setBody w st k v).max_size_in_bytes = st.max_size_in_bytes ∧
    (setBody w st k v).max_count = st.max_count ∧
    ((keysOf st.cells).Nodup → (keysOf (setBody w st k v).cells).Nodup) ∧
    (st.current_size_in_bytes = sumSizes st.cells →
      (setBody w st k v).current_size_in_bytes = sumSizes (setBody w st k v).cells) := by
  rw [setBody]
  cases hf : findCell st.cells k with
  | none =>
    refine ⟨rfl, rfl, fun hnd => ?_, fun hacct => ?_⟩
    · dsimp
      rw [keysOf_append_single]
      rw [List.nodup_append]
      refine ⟨hnd, List.nodup_singleton _, ?_⟩
      intro a ha hb
      rw [List.mem_singleton] at hb
      subst hb
      exact findCell_eq_none.mp hf ha
    · dsimp
      rw [sumSizes_append_single, hacct]
  | some c =>
    refine ⟨rfl, rfl, fun hnd => ?_, fun hacct => ?_⟩
    · dsimp
      rw [keysOf_update]
      exact hnd
    · dsimp
      have h1 := sumSizes_update
        { c with visited := true, value := v, size := weightOf w v } hf
      have h2 := size_le_sumSizes hf
      have h3 : ({ c with visited := true, value := v, size := weightOf w v }
          : SieveCell V).size = weightOf w v := rfl
      rw [h3] at h1
      omega

theorem sieve_remove_cases {st st' : SieveState K V} {k : K}
    (h : sieve_remove st k = some st') :
    (st' = st ∧ findCell st.cells k = none) ∨
    (∃ cell, findCell st.cells k = some cell ∧
      st'.cells = eraseCell st.cells k ∧
      st'.current_size_in_bytes = st.current_size_in_bytes - cell.size ∧
      st'.max_size_in_bytes = st.max_size_in_bytes ∧
      st'.max_count = st.max_count ∧
      st'.next_id = st.next_id) := by
  rw [sieve_remove] at h
  split at h
  · rename_i hf
    injection h with h
    exact Or.inl ⟨h.symm, hf⟩
  · rename_i cell hf
    by_cases hin : cell.queue_iterator ∈ queueIds st.queue
    · rw [if_pos hin] at h
      by_cases hh : st.hand = some cell.queue_iterator
      · rw [if_pos hh] at h
        refine Or.inr ⟨cell, hf, ?_⟩
        split at h
        · injection h with h
          subst h
          exact ⟨rfl, rfl, rfl, rfl, rfl⟩
        · injection h with h
          subst h
          exact ⟨rfl, rfl, rfl, rfl, rfl⟩
      · rw [if_neg hh] at h
        injection h with h
        subst h
        exact Or.inr ⟨cell, hf, rfl, rfl, rfl, rfl, rfl⟩
    · rw [if_neg hin] at h
      simp at h

theorem sieve_get_frame (st : SieveState K V) (k : K) :
    (sieve_get st k).2.queue = st.queue ∧
    (sieve_get st k).2.hand = st.hand ∧
    (sieve_get st k).2.next_id = st.next_id ∧
    (sieve_get st k).2.current_size_in_bytes = st.current_size_in_bytes ∧
    (sieve_get st k).2.max_size_in_bytes = st.max_size_in_bytes ∧
    (sieve_get st k).2.max_count = st.max_count ∧
    (sieve_get st k).2.cells.length = st.cells.length ∧
    keysOf (sieve_get st k).2.cells = keysOf st.cells ∧
    sumSizes (sieve_get st k).2.cells = sumSizes st.cells ∧
    (∀ k', k' ≠ k → findCell (sieve_get st k).2.cells k' = findCell st.cells k') ∧
    (match findCell st.cells k with
     | none => (sieve_get st k).2 = st ∧ (sieve_get st k).1 = none
     | some c => findCell (sieve_get st k).2.cells k = some { c with visited := true } ∧
                 (sieve_get st k).1 = c.value) := by
  rw [sieve_get]
  cases hf : findCell st.cells k with
  | none =>
    exact ⟨rfl, rfl, rfl, rfl, rfl, rfl, rfl, rfl, rfl, fun k' h' => rfl, rfl, rfl⟩
  | some c =>
    dsimp
    have h1 := sumSizes_update { c with visited := true } hf
    have h2 : ({ c with visited := true } : SieveCell V).size = c.size := rfl
    rw [h2] at h1
    exact ⟨rfl, rfl, rfl, rfl, rfl, rfl, updateCell_length _ _ _, keysOf_update _ _ _,
      by omega, fun k' h' => findCell_update_ne _ h', findCell_update_self _ hf, rfl⟩

theorem sieve_getWithKey_frame (st : SieveState K V) (k : K) :
    (sieve_getWithKey st k).2.queue = st.queue ∧
    (sieve_getWithKey st k).2.hand = st.hand ∧
    (sieve_getWithKey st k).2.next_id = st.next_id ∧
    (sieve_getWithKey st k).2.current_size_in_bytes = st.current_size_in_bytes ∧
    (sieve_getWithKey st k).2.max_size_in_bytes = st.max_size_in_bytes ∧
    (sieve_getWithKey st k).2.max_count = st.max_count ∧
    (sieve_getWithKey st k).2.cells.length = st.cells.length ∧
    keysOf (sieve_getWithKey st k).2.cells = keysOf st.cells ∧
    sumSizes (sieve_getWithKey st k).2.cells = sumSizes st.cells ∧
    (∀ k', k' ≠ k → findCell (sieve_getWithKey st k).2.cells k' = findCell st.cells k') ∧
    (match findCell st.cells k with
     | none => (sieve_getWithKey st k).2 = st ∧ (sieve_getWithKey st k).1 = none
     | some c =>
        findCell (sieve_getWithKey st k).2.cells k = some { c with visited := true } ∧
        (sieve_getWithKey st k).1 = some (k, c.value)) := by
  rw [sieve_getWithKey]
  cases hf : findCell st.cells k with
  | none =>
    exact ⟨rfl, rfl, rfl, rfl, rfl, rfl, rfl, rfl, rfl, fun k' h' => rfl, rfl, rfl⟩
  | some c =>
    dsimp
    have h1 := sumSizes_update { c with visited := true } hf
    have h2 : ({ c with visited := true } : SieveCell V).size = c.size := rfl
    rw [h2] at h1
    exact ⟨rfl, rfl, rfl, rfl, rfl, rfl, updateCell_length _ _ _, keysOf_update _ _ _,
      by omega, fun k' h' => findCell_update_ne _ h', findCell_update_self _ hf, rfl⟩

theorem removeOverflow_map_eq {st0 st' : SieveState K V} {es : List Nat}
    (h : (removeOverflow st0).map (fun p => (p.1, [p.2])) = some (st', es)) :
    ∃ wl, removeOverflow st0 = some (st', wl) ∧ es = [wl] := by
  cases hro : removeOverflow st0 with
  | none =>
    rw [hro] at h
    simp at h
  | some p =>
    rw [hro, Option.map_some'] at h
    injection h with h
    injection h with h1 h2
    subst h1
    exact ⟨p.2, rfl, h2.symm⟩

theorem sieve_reachable_inv {w : V → Nat} {st : SieveState K V}
    (h : SieveReachable w st) : SieveInv st := by
  induction h with
  | init msz mc =>
    exact ⟨rfl, List.nodup_nil, Nat.zero_le _, fun hmc => Nat.zero_le _⟩
  | set k v hst hset ih =>
    rename_i st0 st1 es
    rw [sieve_set] at hset
    obtain ⟨wl, hro, hes⟩ := removeOverflow_map_eq hset
    obtain ⟨m1, m2, m3, m4⟩ := removeOverflow_spec hro
    obtain ⟨b1, b2, b3, b4⟩ := setBody_spec w st0 k v
    obtain ⟨p1, p2, p3⟩ := m4 (b4 ih.1)
    refine ⟨p1, (removeOverflow_evicted (b3 ih.2.1) hro).1, ?_, fun hmc => ?_⟩
    · omega
    · rw [m2] at hmc
      have := p3 hmc
      omega
  | setMaxCount n hst hset ih =>
    rename_i st0 st1 es
    rw [sieve_setMaxCount] at hset
    obtain ⟨wl, hro, hes⟩ := removeOverflow_map_eq hset
    obtain ⟨m1, m2, m3, m4⟩ := removeOverflow_spec hro
    obtain ⟨p1, p2, p3⟩ := m4 ih.1
    have hnd : (keysOf ({ st0 with max_count := n } : SieveState K V).cells).Nodup := ih.2.1
    refine ⟨p1, (removeOverflow_evicted hnd hro).1, ?_, fun hmc => ?_⟩
    · omega
    · rw [m2] at hmc
      have := p3 hmc
      omega
  | setMaxSizeInBytes n hst hset ih =>
    rename_i st0 st1 es
    rw [sieve_setMaxSizeInBytes] at hset
    obtain ⟨wl, hro, hes⟩ := removeOverflow_map_eq hset
    obtain ⟨m1, m2, m3, m4⟩ := removeOverflow_spec hro
    obtain ⟨p1, p2, p3⟩ := m4 ih.1
    have hnd : (keysOf ({ st0 with max_size_in_bytes := n } : SieveState K V).cells).Nodup :=
      ih.2.1
    refine ⟨p1, (removeOverflow_evicted hnd hro).1, ?_, fun hmc => ?_⟩
    · omega
    · rw [m2] at hmc
      have := p3 hmc
      omega
  | remove k hst hrem ih =>
    rename_i st0 st1
    rcases sieve_remove_cases hrem with ⟨heq, hf⟩ | ⟨cell, hf, hc, hs, hm1, hm2, hn⟩
    · rw [heq]
      exact ih
    · have e1 := sumSizes_erase hf
      have e2 := size_le_sumSizes hf
      have e3 := eraseCell_length hf
      obtain ⟨i1, i2, i3, i4⟩ := ih
      refine ⟨?_, ?_, ?_, fun hmc => ?_⟩
      · rw [hs, hc, i1]
        omega
      · rw [hc]
        exact nodup_keys_erase _ i2
      · rw [hs, hm1]
        omega
      · rw [hm2] at hmc ⊢
        have := i4 hmc
        rw [hc]
        omega
  | clear hst ih =>
    exact ⟨rfl, List.nodup_nil, Nat.zero_le _, fun hmc => Nat.zero_le _⟩
  | get k hst ih =>
    rename_i st0
    obtain ⟨f1, f2, f3, f4, f5, f6, f7, f8, f9, f10, f11⟩ := sieve_get_frame st0 k
    obtain ⟨i1, i2, i3, i4⟩ := ih
    refine ⟨?_, ?_, ?_, fun hmc => ?_⟩
    · rw [f4, f9, i1]
    · rw [f8]
      exact i2
    · rw [f4, f5]
      exact i3
    · rw [f6] at hmc ⊢
      rw [f7]
      exact i4 hmc
  | getWithKey k hst ih =>
    rename_i st0
    obtain ⟨f1, f2, f3, f4, f5, f6, f7, f8, f9, f10, f11⟩ := sieve_getWithKey_frame st0 k
    obtain ⟨i1, i2, i3, i4⟩ := ih
    refine ⟨?_, ?_, ?_, fun hmc => ?_⟩
    · rw [f4, f9, i1]
    · rw [f8]
      exact i2
    · rw [f4, f5]
      exact i3
    · rw [f6] at hmc ⊢
      rw [f7]
      exact i4 hmc

theorem findCell_append_self {cells : List (K × SieveCell V)} {k : K}
    (c : SieveCell V) (h : k ∉ keysOf cells) :
    findCell (cells ++ [(k, c)]) k = some c := by
  induction cells with
  | nil => simp [findCell]
  | cons kc rest ih =>
    simp only [keysOf, List.map_cons, List.mem_cons] at h
    push_neg at h
    show (if kc.1 = k then some kc.2 else findCell (rest ++ [(k, c)]) k) = some c
    rw [if_neg (fun hh => h.1 hh.symm), ih h.2]

theorem removeOverflowLoop_id {msz mc : Nat} {s : SieveLoopState K V}
    (h : ¬ loopCond msz mc s) :
    ∀ fuel, removeOverflowLoop msz mc fuel s = some s := by
  intro fuel
  cases fuel with
  | zero => rw [removeOverflowLoop, if_neg h]
  | succ fuel => rw [removeOverflowLoop, if_neg h]

theorem loopCond_entry_false {st : SieveState K V}
    (h1 : st.current_size_in_bytes ≤ st.max_size_in_bytes)
    (h2 : st.max_count = 0 ∨ st.cells.length ≤ st.max_count) :
    ¬ loopCond st.max_size_in_bytes st.max_count
      { queue := st.queue, hand := st.hand, cells := st.cells,
        csz := st.current_size_in_bytes, wl := 0, qs := st.cells.length } := by
  rintro ⟨ha, hb⟩
  dsimp at ha hb
  rcases ha with ha | ⟨hne, hlt⟩
  · omega
  · rcases h2 with h2 | h2
    · exact hne h2
    · omega

/-! ### Claim theorems -/

/-- C1: for every sequence of public calls that return, after each call the
capacity invariant holds: `sizeInBytes() ≤ maxSizeInBytes()` and, whenever
`max_count > 0`, `count() ≤ max_count`. -/
theorem C1_capacity_invariant {w : V → Nat} {st : SieveState K V}
    (h : SieveReachable w st) :
    sieve_sizeInBytes st ≤ sieve_maxSizeInBytes st ∧
    (st.max_count ≠ 0 → sieve_count st ≤ st.max_count) := by
  obtain ⟨i1, i2, i3, i4⟩ := sieve_reachable_inv h
  exact ⟨i3, i4⟩

theorem C1_capacity_invariant_witness :
    sieve_sizeInBytes (⟨[(0, 10)], none, 1,
        [(10, ⟨some 1, 1, false, 0⟩)], 1, 100, 2⟩ : SieveState Nat Nat)
      ≤ sieve_maxSizeInBytes (⟨[(0, 10)], none, 1,
        [(10, ⟨some 1, 1, false, 0⟩)], 1, 100, 2⟩ : SieveState Nat Nat) ∧
    ((⟨[(0, 10)], none, 1, [(10, ⟨some 1, 1, false, 0⟩)], 1, 100, 2⟩
        : SieveState Nat Nat).max_count ≠ 0 →
      sieve_count (⟨[(0, 10)], none, 1,
        [(10, ⟨some 1, 1, false, 0⟩)], 1, 100, 2⟩ : SieveState Nat Nat)
        ≤ (⟨[(0, 10)], none, 1,
        [(10, ⟨some 1, 1, false, 0⟩)], 1, 100, 2⟩ : SieveState Nat Nat).max_count) := by
  have hset : sieve_set w1 (sieve_init 100 2) 10 (some 1)
      = some (⟨[(0, 10)], none, 1, [(10, ⟨some 1, 1, false, 0⟩)], 1, 100, 2⟩, [0]) := by
    decide
  exact C1_capacity_invariant (SieveReachable.set 10 (some 1) (SieveReachable.init 100 2) hset)

/-- C2: with max_count = 2 and an unconstraining byte limit, the sequence
set(A), set(B), get(A), set(C) makes the eviction scan demote A (its visited
bit is false afterwards) and evict B, and the final dump() holds exactly the
entries of A and C (here A=10, B=11, C=12). -/
theorem C2_sieve_scenario :
    c2chain.map (fun st =>
      (sieve_dump st, (findCell st.cells 10).map (fun c => c.visited)))
      = some ([(10, some 1), (12, some 3)], some false) := by
  decide

/-- C6: in every reachable state, sizeInBytes() equals the sum of the stored
per-entry size fields of the cells, and dump() returns exactly one entry per
cell (so this sum is the total weight of the entries dump() returns). -/
theorem C6_accounting_invariant {w : V → Nat} {st : SieveState K V}
    (h : SieveReachable w st) :
    sieve_sizeInBytes st = sumSizes st.cells ∧
    (sieve_dump st).length = st.cells.length :=
  ⟨(sieve_reachable_inv h).1, by simp [sieve_dump]⟩

theorem C6_accounting_invariant_witness :
    sieve_sizeInBytes (⟨[(0, 10)], none, 1,
        [(10, ⟨some 1, 1, false, 0⟩)], 1, 100, 2⟩ : SieveState Nat Nat)
      = sumSizes (⟨[(0, 10)], none, 1,
        [(10, ⟨some 1, 1, false, 0⟩)], 1, 100, 2⟩ : SieveState Nat Nat).cells ∧
    (sieve_dump (⟨[(0, 10)], none, 1,
        [(10, ⟨some 1, 1, false, 0⟩)], 1, 100, 2⟩ : SieveState Nat Nat)).length
      = (⟨[(0, 10)], none, 1,
        [(10, ⟨some 1, 1, false, 0⟩)], 1, 100, 2⟩ : SieveState Nat Nat).cells.length := by
  have hset : sieve_set w1 (sieve_init 100 2) 10 (some 1)
      = some (⟨[(0, 10)], none, 1, [(10, ⟨some 1, 1, false, 0⟩)], 1, 100, 2⟩, [0]) := by
    decide
  exact C6_accounting_invariant
    (SieveReachable.set 10 (some 1) (SieveReachable.init 100 2) hset)

/-- C3 counterexample: with max_size_in_bytes = 0 (and max_count = 0) the
cache does not "accept nothing": set of a null value (weight 0) is retained,
so count() is 1 after the call, not 0. -/
theorem C3_counterexample :
    (sieve_set w1 (sieve_init 0 0) 7 none).map (fun p => sieve_count p.1)
      = some 1 := by
  decide

/-- C3 amended: with max_size_in_bytes = 0, after any returning set the cache
retains no bytes: sizeInBytes() = 0 and every surviving entry has stored
size 0; entries of zero weight (in particular null values) may survive. -/
theorem C3_amended_zero_capacity {w : V → Nat} {st st' : SieveState K V}
    {es : List Nat} {k : K} {v : Option V}
    (hreach : SieveReachable w st) (hmsz : st.max_size_in_bytes = 0)
    (hset : sieve_set w st k v = some (st', es)) :
    sieve_sizeInBytes st' = 0 ∧
    (∀ k' c, findCell st'.cells k' = some c → c.size = 0) := by
  have hst' : SieveReachable w st' := SieveReachable.set k v hreach hset
  obtain ⟨i1, i2, i3, i4⟩ := sieve_reachable_inv hst'
  rw [sieve_set] at hset
  obtain ⟨wl, hro, hes⟩ := removeOverflow_map_eq hset
  obtain ⟨m1, m2, m3, m4⟩ := removeOverflow_spec hro
  obtain ⟨b1, b2, b3, b4⟩ := setBody_spec w st k v
  have hz : st'.current_size_in_bytes = 0 := by
    rw [m1, b1, hmsz] at i3
    omega
  refine ⟨hz, fun k' c hf => ?_⟩
  have hle := size_le_sumSizes hf
  rw [← i1] at hle
  omega

theorem C3_amended_zero_capacity_witness :
    sieve_sizeInBytes (⟨[], none, 1, [], 0, 0, 0⟩ : SieveState Nat Nat) = 0 ∧
    (∀ k' c, findCell (⟨[], none, 1, [], 0, 0, 0⟩ : SieveState Nat Nat).cells k'
      = some c → c.size = 0) := by
  have hset : sieve_set w1 (sieve_init 0 0) 7 (some 5)
      = some (⟨[], none, 1, [], 0, 0, 0⟩, [1]) := by
    decide
  exact C3_amended_zero_capacity (SieveReachable.init 0 0) rfl hset

/-- C4 counterexample: a set() that freshly inserts a key leaves its visited
flag false (the code runs cell.visited = 0 on insertion), refuting "the
visited flag is true immediately after every set". -/
theorem C4_counterexample :
    (sieve_set w1 (sieve_init 100 0) 5 (some 1)).map
      (fun p => (findCell p.1.cells 5).map (fun c => c.visited))
      = some (some false) := by
  decide

/-- C4 amended: the visited flag of k is true immediately after a hitting
get(k); a set(k, v) that overwrote an existing entry set the flag to true and
it is still true at return when the call needed no eviction scan (the scan
may otherwise demote it); a set(k, v) that freshly inserted k leaves the flag
false whenever the entry survives that call's scan. -/
theorem C4_amended_visited_flag {w : V → Nat} :
    (∀ (st : SieveState K V) (k : K) (c : SieveCell V),
      findCell st.cells k = some c →
      findCell (sieve_get st k).2.cells k = some { c with visited := true }) ∧
    (∀ (st st' : SieveState K V) (es : List Nat) (k : K) (v : Option V),
      (keysOf st.cells).Nodup →
      findCell st.cells k = none →
      sieve_set w st k v = some (st', es) →
      ∀ c', findCell st'.cells k = some c' → c'.visited = false) ∧
    (∀ (st st' : SieveState K V) (es : List Nat) (k : K) (v : Option V) (c : SieveCell V),
      findCell st.cells k = some c →
      sieve_set w st k v = some (st', es) →
      (setBody w st k v).current_size_in_bytes ≤ st.max_size_in_bytes →
      (st.max_count = 0 ∨ (setBody w st k v).cells.length ≤ st.max_count) →
      findCell st'.cells k =
        some { c with visited := true, value := v, size := weightOf w v }) := by
  refine ⟨fun st k c hf => ?_, fun st st' es k v hnd hf hset c' hc' => ?_,
    fun st st' es k v c hf hset hsz hcnt => ?_⟩
  · rw [sieve_get, hf]
    exact findCell_update_self _ hf
  · rw [sieve_set] at hset
    obtain ⟨wl, hro, hes⟩ := removeOverflow_map_eq hset
    have hmid : findCell (setBody w st k v).cells k
        = some { value := v, size := weightOf w v, visited := false,
                 queue_iterator := st.next_id } := by
      rw [setBody, hf]
      exact findCell_append_self _ (findCell_eq_none.mp hf)
    obtain ⟨g1, g2, g3, g4⟩ :=
      removeOverflow_evicted ((setBody_spec w st k v).2.2.1 hnd) hro
    obtain ⟨c0, hc0, hv0, hs0, hvis0⟩ := g4 k c' hc'
    rw [hmid] at hc0
    injection hc0 with hc0
    rcases hvis0 with hvis0 | hvis0
    · rw [hvis0, ← hc0]
    · exact hvis0
  · rw [sieve_set] at hset
    obtain ⟨wl, hro, hes⟩ := removeOverflow_map_eq hset
    obtain ⟨b1, b2, b3, b4⟩ := setBody_spec w st k v
    have hnc := @loopCond_entry_false K V _ (setBody w st k v) (by omega)
      (by rcases hcnt with hcnt | hcnt
          · exact Or.inl (by omega)
          · exact Or.inr (by omega))
    rw [removeOverflow, removeOverflowLoop_id hnc] at hro
    have hro2 : (if 2 ^ 63 < (setBody w st k v).current_size_in_bytes
        then (none : Option (SieveState K V × Nat))
        else some (setBody w st k v, 0)) = some (st', wl) := hro
    by_cases hbig : 2 ^ 63 < (setBody w st k v).current_size_in_bytes
    · rw [if_pos hbig] at hro2
      simp at hro2
    · rw [if_neg hbig] at hro2
      injection hro2 with hro2
      injection hro2 with hro21 hro22
      rw [← hro21]
      rw [setBody, hf]
      exact findCell_update_self _ hf

theorem C4_amended_visited_flag_witness :
    findCell (sieve_get c5pre 10).2.cells 10 = some ⟨some 1, 1, true, 0⟩ ∧
    (⟨some 1, 1, false, 0⟩ : SieveCell Nat).visited = false ∧
    findCell (⟨[(0, 10)], none, 1, [(10, ⟨some 9, 1, true, 0⟩)], 1, 100, 2⟩
      : SieveState Nat Nat).cells 10 = some ⟨some 9, 1, true, 0⟩ := by
  obtain ⟨t1, t2, t3⟩ := @C4_amended_visited_flag Nat Nat _ w1
  refine ⟨t1 c5pre 10 ⟨some 1, 1, false, 0⟩ (by decide), ?_, ?_⟩
  · have hset : sieve_set w1 (sieve_init 100 0) 5 (some 1)
        = some (⟨[(0, 5)], none, 1, [(5, ⟨some 1, 1, false, 0⟩)], 1, 100, 0⟩, [0]) := by
      decide
    exact t2 (sieve_init 100 0)
      ⟨[(0, 5)], none, 1, [(5, ⟨some 1, 1, false, 0⟩)], 1, 100, 0⟩ [0] 5 (some 1)
      List.nodup_nil (by decide) hset ⟨some 1, 1, false, 0⟩ (by decide)
  · have hset : sieve_set w1
        (⟨[(0, 10)], none, 1, [(10, ⟨some 1, 1, false, 0⟩)], 1, 100, 2⟩
          : SieveState Nat Nat) 10 (some 9)
        = some (⟨[(0, 10)], none, 1, [(10, ⟨some 9, 1, true, 0⟩)], 1, 100, 2⟩, [0]) := by
      decide
    exact t3 ⟨[(0, 10)], none, 1, [(10, ⟨some 1, 1, false, 0⟩)], 1, 100, 2⟩
      ⟨[(0, 10)], none, 1, [(10, ⟨some 9, 1, true, 0⟩)], 1, 100, 2⟩ [0] 10 (some 9)
      ⟨some 1, 1, false, 0⟩ (by decide) hset (by decide) (Or.inr (by decide))

/-- C5 (evaluation of the code at the failing inputs): both inputs satisfy
the data-model invariants and have the hand on key 10's node.  From the
two-entry state, remove(10) erases key 11's queue node instead of key 10's,
leaves key 10's node in the queue while key 10 is gone from the map, and
leaves the cursor on the erased node, so the cursor is not valid.  From the
singleton state, remove(10) empties the queue but leaves the cursor on the
erased node instead of the empty-queue sentinel. -/
theorem C5_remove_dangling_cursor :
    SieveWF c5pre ∧
    (sieve_remove c5pre 10).map
      (fun st => (decide (handValid st), queueIds st.queue, keysOf st.cells, st.hand))
      = some (false, [0], [11], some 1) ∧
    SieveWF c5single ∧
    (sieve_remove c5single 10).map
      (fun st => (decide (handValid st), st.queue, st.hand))
      = some (false, [], some 0) := by
  refine ⟨by decide, by decide, by decide, by decide⟩

/-- C7: every returning set / setMaxCount / setMaxSizeInBytes call hands the
weight-loss callback exactly one value (the emitted list is a singleton),
equal to the total stored size of the entries evicted by that call's scan
(for set, the scan runs on the state right after the insert/update), which is
0 when nothing was evicted. -/
theorem C7_weight_loss_callback {w : V → Nat} {st : SieveState K V}
    (hnd : (keysOf st.cells).Nodup) :
    (∀ n st' es, sieve_setMaxCount st n = some (st', es) →
      es = [evictedWeight st.cells st'.cells]) ∧
    (∀ n st' es, sieve_setMaxSizeInBytes st n = some (st', es) →
      es = [evictedWeight st.cells st'.cells]) ∧
    (∀ k v st' es, sieve_set w st k v = some (st', es) →
      es = [evictedWeight (setBody w st k v).cells st'.cells]) := by
  refine ⟨fun n st' es hset => ?_, fun n st' es hset => ?_, fun k v st' es hset => ?_⟩
  · rw [sieve_setMaxCount] at hset
    obtain ⟨wl, hro, hes⟩ := removeOverflow_map_eq hset
    have hnd2 : (keysOf ({ st with max_count := n } : SieveState K V).cells).Nodup := hnd
    obtain ⟨g1, g2, g3, g4⟩ := removeOverflow_evicted hnd2 hro
    rw [hes]
    exact congrArg (fun x => [x]) g3
  · rw [sieve_setMaxSizeInBytes] at hset
    obtain ⟨wl, hro, hes⟩ := removeOverflow_map_eq hset
    have hnd2 : (keysOf ({ st with max_size_in_bytes := n }
        : SieveState K V).cells).Nodup := hnd
    obtain ⟨g1, g2, g3, g4⟩ := removeOverflow_evicted hnd2 hro
    rw [hes]
    exact congrArg (fun x => [x]) g3
  · rw [sieve_set] at hset
    obtain ⟨wl, hro, hes⟩ := removeOverflow_map_eq hset
    obtain ⟨g1, g2, g3, g4⟩ :=
      removeOverflow_evicted ((setBody_spec w st k v).2.2.1 hnd) hro
    rw [hes]
    exact congrArg (fun x => [x]) g3

theorem C7_weight_loss_callback_witness :
    ([0] : List Nat) = [evictedWeight (sieve_init 5 5 : SieveState Nat Nat).cells
      (⟨[], none, 0, [], 0, 5, 3⟩ : SieveState Nat Nat).cells] := by
  have h := (@C7_weight_loss_callback Nat Nat _ w1 (sieve_init 5 5) List.nodup_nil).1
  exact h 3 ⟨[], none, 0, [], 0, 5, 3⟩ [0] (by decide)

/-- C8: when the queue append of a set() on a fresh key throws, the catch
branch erases the just-created map entry, so the state in which the exception
propagates is exactly the pre-call state (map, queue, cursor and size total
untouched). -/
theorem C8_set_rollback {st : SieveState K V} {k : K}
    (h : findCell st.cells k = none) : setQueueInsertFails st k = st := by
  rw [setQueueInsertFails, eraseCell_append_fresh _ (findCell_eq_none.mp h)]

theorem C8_set_rollback_witness :
    setQueueInsertFails (⟨[(0, 10)], none, 1,
      [(10, ⟨some 1, 1, false, 0⟩)], 1, 100, 2⟩ : SieveState Nat Nat) 3
      = ⟨[(0, 10)], none, 1, [(10, ⟨some 1, 1, false, 0⟩)], 1, 100, 2⟩ :=
  C8_set_rollback (by decide)

/-- C9: get (and getWithKey) never changes count(), sizeInBytes(), the queue
contents/order, or the eviction cursor; cells at other keys are untouched; on
a miss the state is unchanged, and on a hit the only change is that the
entry's visited flag becomes true. -/
theorem C9_get_frame_effect (st : SieveState K V) (k : K) :
    (sieve_count (sieve_get st k).2 = sieve_count st ∧
     sieve_sizeInBytes (sieve_get st k).2 = sieve_sizeInBytes st ∧
     (sieve_get st k).2.queue = st.queue ∧
     (sieve_get st k).2.hand = st.hand ∧
     (∀ k', k' ≠ k → findCell (sieve_get st k).2.cells k' = findCell st.cells k') ∧
     (match findCell st.cells k with
      | none => (sieve_get st k).2 = st
      | some c => findCell (sieve_get st k).2.cells k = some { c with visited := true })) ∧
    (sieve_count (sieve_getWithKey st k).2 = sieve_count st ∧
     sieve_sizeInBytes (sieve_getWithKey st k).2 = sieve_sizeInBytes st ∧
     (sieve_getWithKey st k).2.queue = st.queue ∧
     (sieve_getWithKey st k).2.hand = st.hand ∧
     (∀ k', k' ≠ k → findCell (sieve_getWithKey st k).2.cells k' = findCell st.cells k') ∧
     (match findCell st.cells k with
      | none => (sieve_getWithKey st k).2 = st
      | some c => findCell (sieve_getWithKey st k).2.cells k
          = some { c with visited := true })) := by
  obtain ⟨f1, f2, f3, f4, f5, f6, f7, f8, f9, f10, f11⟩ := sieve_get_frame st k
  obtain ⟨g1, g2, g3, g4, g5, g6, g7, g8, g9, g10, g11⟩ := sieve_getWithKey_frame st k
  refine ⟨⟨f7, f4, f1, f2, f10, ?_⟩, ⟨g7, g4, g1, g2, g10, ?_⟩⟩
  · cases hf : findCell st.cells k with
    | none =>
      rw [hf] at f11
      exact f11.1
    | some c =>
      rw [hf] at f11
      exact f11.1
  · cases hf : findCell st.cells k with
    | none =>
      rw [hf] at g11
      exact g11.1
    | some c =>
      rw [hf] at g11
      exact g11.1

theorem C9_get_frame_effect_witness :
    sieve_count (sieve_get c5pre 10).2 = sieve_count c5pre ∧
    sieve_sizeInBytes (sieve_get c5pre 10).2 = sieve_sizeInBytes c5pre ∧
    (sieve_get c5pre 10).2.queue = c5pre.queue ∧
    findCell (sieve_get c5pre 10).2.cells 11 = findCell c5pre.cells 11 := by
  obtain ⟨⟨p1, p2, p3, p4, p5, p6⟩, pk⟩ := C9_get_frame_effect c5pre 10
  exact ⟨p1, p2, p3, p5 11 (by decide)⟩

/-- C10: a stored-null entry is indistinguishable from a miss through get
(both return the null handle), while getWithKey returns a present pair with a
null value; and an entry stored by set(k, null) has stored size 0 (it
contributes nothing to sizeInBytes). -/
theorem C10_null_value {w : V → Nat} :
    (∀ (st : SieveState K V) (k : K) (c : SieveCell V),
      findCell st.cells k = some c → c.value = none → (sieve_get st k).1 = none) ∧
    (∀ (st : SieveState K V) (k : K),
      findCell st.cells k = none → (sieve_get st k).1 = none) ∧
    (∀ (st : SieveState K V) (k : K) (c : SieveCell V),
      findCell st.cells k = some c → c.value = none →
      (sieve_getWithKey st k).1 = some (k, none)) ∧
    (∀ (st st' : SieveState K V) (es : List Nat) (k : K),
      (keysOf st.cells).Nodup →
      sieve_set w st k none = some (st', es) →
      ∀ c', findCell st'.cells k = some c' → c'.size = 0) := by
  refine ⟨fun st k c hf hv => ?_, fun st k hf => ?_, fun st k c hf hv => ?_,
    fun st st' es k hnd hset c' hc' => ?_⟩
  · rw [sieve_get, hf]
    exact hv
  · rw [sieve_get, hf]
  · rw [sieve_getWithKey, hf]
    dsimp
    rw [hv]
  · rw [sieve_set] at hset
    obtain ⟨wl, hro, hes⟩ := removeOverflow_map_eq hset
    obtain ⟨g1, g2, g3, g4⟩ :=
      removeOverflow_evicted ((setBody_spec w st k none).2.2.1 hnd) hro
    obtain ⟨c0, hc0, hv0, hs0, hvis0⟩ := g4 k c' hc'
    have hc0size : c0.size = 0 := by
      cases hf : findCell st.cells k with
      | none =>
        rw [setBody, hf] at hc0
        rw [findCell_append_self _ (findCell_eq_none.mp hf)] at hc0
        injection hc0 with hc0
        rw [← hc0]
        rfl
      | some c =>
        rw [setBody, hf] at hc0
        rw [findCell_update_self _ hf] at hc0
        injection hc0 with hc0
        rw [← hc0]
        rfl
    rw [hs0, hc0size]

theorem C10_null_value_witness :
    (sieve_get c10state 4).1 = none ∧
    (sieve_get c10state 9).1 = none ∧
    (sieve_getWithKey c10state 4).1 = some (4, none) ∧
    (⟨none, 0, false, 0⟩ : SieveCell Nat).size = 0 := by
  obtain ⟨t1, t2, t3, t4⟩ := @C10_null_value Nat Nat _ w1
  refine ⟨t1 c10state 4 ⟨none, 0, false, 0⟩ (by decide) rfl, t2 c10state 9 (by decide),
    t3 c10state 4 ⟨none, 0, false, 0⟩ (by decide) rfl, ?_⟩
  have hset : sieve_set w1 (sieve_init 10 0) 4 none = some (c10state, [0]) := by
    decide
  exact t4 (sieve_init 10 0) c10state [0] 4 List.nodup_nil hset
    ⟨none, 0, false, 0⟩ (by decide)
